import Mathlib

/-
  Verification of the NDJSON streaming parser
  (src/services/ndjson-stream-parser.service.ts and
   src/decorators/ndjson-stream.decorator.ts).

  Strings are modelled as `List Char`; `JSON.parse` is modelled as an
  abstract `parse : List Char → Except String α` (on failure it yields the
  thrown error's `message`), since it is a host builtin and every claim is
  parametric in the actual JSON grammar.
-/

namespace NdJson

/-- Characters removed by JavaScript String.prototype.trim: the WhiteSpace
and LineTerminator productions — ASCII white space and line terminators,
no-break space, BOM, and the Unicode Zs space separators. -/
def isJsWs (c : Char) : Bool :=
  c == ' ' || c == '\t' || c == '\n' || c == '\r' || c == '\x0b' || c == '\x0c' ||
  c == '\u00A0' || c == '\uFEFF' || c == '\u2028' || c == '\u2029' ||
  c == '\u1680' || (decide (0x2000 ≤ c.toNat) && decide (c.toNat ≤ 0x200A)) ||
  c == '\u202F' || c == '\u205F' || c == '\u3000'

/-- Model of JavaScript String.prototype.trim on character lists. -/
def jsTrim (s : List Char) : List Char :=
  ((s.dropWhile isJsWs).reverse.dropWhile isJsWs).reverse

/-- Model of JavaScript buffer.split with a single newline separator, as in
the source line `const lines = buffer.split('\n')`. The result always has
at least one segment. -/
def splitNl : List Char → List (List Char)
  | [] => [[]]
  | c :: cs =>
    if c = '\n' then [] :: splitNl cs
    else
      match splitNl cs with
      | [] => [[c]]
      | s :: rest => (c :: s) :: rest

/-- One observable output of the Transform stream: either a value delivered
to the readable side (`this.push(parsed)`) or an event emitted with a
dynamically built name (`this.emit(...)`), recorded as the itemCount and the
error message interpolated into the name. -/
inductive Out (α : Type) where
  | push : α → Out α
  | emit : Nat → String → Out α
  deriving DecidableEq

/-- The closure state of createParser: `let buffer = ''; let itemCount = 0`. -/
structure PState where
  buffer : List Char
  itemCount : Nat
  deriving DecidableEq

/-- Initial closure state of createParser. -/
def initState : PState := ⟨[], 0⟩

/-- The event name the source interpolates on a parse failure:
`Error occurred parsing stream item ${itemCount}: ${error.message}`. -/
def eventName (n : Nat) (msg : String) : List Char :=
  "Error occurred parsing stream item ".toList ++ (toString n).toList
    ++ ": ".toList ++ msg.toList

/-- The body of the per-line loop in transform, after `itemCount++` has set
the counter to `n`: `if (line.trim()) { try push JSON.parse(line) } catch
emit`. -/
def processLine (parse : List Char → Except String α) (n : Nat)
    (line : List Char) : List (Out α) :=
  if jsTrim line = [] then []
  else
    match parse line with
    | .ok v => [Out.push v]
    | .error m => [Out.emit n m]

/-- The `for (const line of lines)` loop of transform: starting from
itemCount `n`, increment the counter for every line and collect the outputs
of `processLine`. Returns the final itemCount and the ordered outputs. -/
def processLines (parse : List Char → Except String α) (n : Nat) :
    List (List Char) → Nat × List (Out α)
  | [] => (n, [])
  | l :: ls =>
    let outs := processLine parse (n + 1) l
    let rest := processLines parse (n + 1) ls
    (rest.1, outs ++ rest.2)

/-- The transform callback applied to the already-decoded text of one
chunk: append it to the buffer, split on newlines, keep the last (possibly
incomplete) segment as the new buffer (`buffer = lines.pop() || ''`), and
process every complete line. The per-chunk `chunk.toString()` UTF-8 decode
that produces this text from a Buffer is modelled by transformBytes. -/
def transform (parse : List Char → Except String α) (st : PState)
    (chunk : List Char) : PState × List (Out α) :=
  let combined := st.buffer ++ chunk
  let lines := splitNl combined
  let buf := lines.getLastD []
  let done := lines.dropLast
  let r := processLines parse st.itemCount done
  (⟨buf, r.1⟩, r.2)

/-- The flush callback: if the remaining buffer is non-blank, push
`JSON.parse(buffer)` or emit an error event carrying the current
(un-incremented) itemCount. -/
def flush (parse : List Char → Except String α) (st : PState) : List (Out α) :=
  if jsTrim st.buffer = [] then []
  else
    match parse st.buffer with
    | .ok v => [Out.push v]
    | .error m => [Out.emit st.itemCount m]

/-- Feed a list of chunks to transform in order, threading the closure
state and concatenating the outputs. -/
def runChunks (parse : List Char → Except String α) (st : PState) :
    List (List Char) → PState × List (Out α)
  | [] => (st, [])
  | c :: cs =>
    let r₁ := transform parse st c
    let r₂ := runChunks parse r₁.1 cs
    (r₂.1, r₁.2 ++ r₂.2)

/-- A complete decode session: all chunks through transform, then flush. -/
def runAll (parse : List Char → Except String α)
    (chunks : List (List Char)) : List (Out α) :=
  let r := runChunks parse initState chunks
  r.2 ++ flush parse r.1

/-- The values pushed to the readable side, in order: this is the sequence
`for await (const item of parser)` iterates in parseStream. -/
def valuesOf (outs : List (Out α)) : List α :=
  outs.filterMap fun o =>
    match o with
    | .push v => some v
    | .emit _ _ => none

/-- The diagnostics emitted as events, in order, as (itemCount, message)
pairs. -/
def diagsOf (outs : List (Out α)) : List (Nat × String) :=
  outs.filterMap fun o =>
    match o with
    | .push _ => none
    | .emit n m => some (n, m)

/-- The full sequence of values the parser pushes to its readable side
during a session, in order. Node delivers to the `for await` consumer only
the prefix of these that precedes the first pushed null, since push(null)
signals end of stream: that delivered prefix is parseStreamYield. -/
def parseStreamValues (parse : List Char → Except String α)
    (chunks : List (List Char)) : List α :=
  valuesOf (runAll parse chunks)

/-- The `errors` list accumulated by parseStream: the events whose emitted
name is exactly the string it subscribes to with
`parser.on('parse-error', ...)`. -/
def parseStreamErrors (parse : List Char → Except String α)
    (chunks : List (List Char)) : List (List Char) :=
  (runAll parse chunks).filterMap fun o =>
    match o with
    | .push _ => none
    | .emit n m =>
      if eventName n m = "parse-error".toList then some (eventName n m) else none

/-- Whether parseStream reaches its console.warn branch:
`if (errors.length > 0)`. -/
def warnCalled (parse : List Char → Except String α)
    (chunks : List (List Char)) : Bool :=
  0 < (parseStreamErrors parse chunks).length

/-- The suffix of the input that strictly follows the last newline seen, or
the whole input when it contains no newline: the carry described by the
spec. -/
def afterLastNl (s : List Char) : List Char :=
  (s.reverse.takeWhile (fun c => c != '\n')).reverse

/-- An NDJSON text consisting of the given lines, each terminated by a
single newline character. -/
def joinNl (L : List (List Char)) : List Char :=
  L.foldr (fun l acc => l ++ '\n' :: acc) []

/-- A concrete stand-in for JSON.parse used in witnesses and
counterexamples: it accepts the texts 1 and 2 and rejects everything else
with the message bad. -/
def demoParse : List Char → Except String Nat := fun s =>
  if s = "1".toList then .ok 1
  else if s = "2".toList then .ok 2
  else .error "bad"

/-- Options of the NdJsonStreamReq decorator; the batchSize field is
optional. -/
structure NdJsonStreamOptions where
  batchSize : Option Int
  deriving DecidableEq

/-- The request the decorator factory returns: the body replaced by the
value sequence of parseStream, and the batchSize attached for downstream
use. -/
structure NdJsonStreamRequest (α : Type) where
  body : List α
  batchSize : Int
  deriving DecidableEq

/-- Model of String.prototype.toLowerCase on character lists. -/
def toLowerList (s : List Char) : List Char := s.map Char.toLower

/-- Whether pat occurs at the start of s. -/
def hasPrefixChars : List Char → List Char → Bool
  | [], _ => true
  | _ :: _, [] => false
  | p :: ps, c :: cs => p == c && hasPrefixChars ps cs

/-- Whether pat occurs as a contiguous substring of s, modelling
String.prototype.includes. -/
def containsSub : List Char → List Char → Bool
  | [], pat => pat.isEmpty
  | c :: cs, pat => hasPrefixChars pat (c :: cs) || containsSub cs pat

/-- The NdJsonStreamReq decorator factory: read the content-type header
(throwing a TypeError when it is absent, as `contentType.toLowerCase()`
does on undefined), validate it contains application/x-ndjson (else
BadRequestException), replace the body with the parseStream generator and
attach `data?.batchSize ?? 25`. -/
def ndJsonStreamReq (parse : List Char → Except String α)
    (data : Option NdJsonStreamOptions) (contentType : Option (List Char))
    (chunks : List (List Char)) : Except String (NdJsonStreamRequest α) :=
  match contentType with
  | none => .error "TypeError: Cannot read properties of undefined"
  | some ct =>
    if containsSub (toLowerList ct) ("application/x-ndjson".toList) then
      .ok { body := parseStreamValues parse chunks,
            batchSize :=
              match data with
              | none => 25
              | some o => o.batchSize.getD 25 }
    else .error "BadRequestException: Invalid content-type"

/-- The Unicode replacement character U+FFFD that Buffer.toString
substitutes for bytes that do not form a valid UTF-8 sequence. -/
def repl : Char := '�'

/-- Fuel-indexed worker for utf8Decode; the fuel (at least the byte count)
only forces structural recursion and is never exhausted mid-input. -/
def utf8DecodeGo : Nat → List Nat → List Char
  | 0, _ => []
  | _ + 1, [] => []
  | fuel + 1, b :: bs =>
    if b ≤ 0x7F then Char.ofNat b :: utf8DecodeGo fuel bs
    else if 0xC2 ≤ b ∧ b ≤ 0xDF then
      match bs with
      | [] => [repl]
      | b1 :: r1 =>
        if 0x80 ≤ b1 ∧ b1 ≤ 0xBF then
          Char.ofNat ((b - 0xC0) * 0x40 + (b1 - 0x80)) :: utf8DecodeGo fuel r1
        else repl :: utf8DecodeGo fuel bs
    else if 0xE0 ≤ b ∧ b ≤ 0xEF then
      match bs with
      | [] => [repl]
      | b1 :: r1 =>
        if (if b = 0xE0 then 0xA0 ≤ b1 ∧ b1 ≤ 0xBF
            else if b = 0xED then 0x80 ≤ b1 ∧ b1 ≤ 0x9F
            else 0x80 ≤ b1 ∧ b1 ≤ 0xBF) then
          match r1 with
          | [] => [repl]
          | b2 :: r2 =>
            if 0x80 ≤ b2 ∧ b2 ≤ 0xBF then
              Char.ofNat ((b - 0xE0) * 0x1000 + (b1 - 0x80) * 0x40 + (b2 - 0x80))
                :: utf8DecodeGo fuel r2
            else repl :: utf8DecodeGo fuel r1
        else repl :: utf8DecodeGo fuel bs
    else if 0xF0 ≤ b ∧ b ≤ 0xF4 then
      match bs with
      | [] => [repl]
      | b1 :: r1 =>
        if (if b = 0xF0 then 0x90 ≤ b1 ∧ b1 ≤ 0xBF
            else if b = 0xF4 then 0x80 ≤ b1 ∧ b1 ≤ 0x8F
            else 0x80 ≤ b1 ∧ b1 ≤ 0xBF) then
          match r1 with
          | [] => [repl]
          | b2 :: r2 =>
            if 0x80 ≤ b2 ∧ b2 ≤ 0xBF then
              match r2 with
              | [] => [repl]
              | b3 :: r3 =>
                if 0x80 ≤ b3 ∧ b3 ≤ 0xBF then
                  Char.ofNat ((b - 0xF0) * 0x40000 + (b1 - 0x80) * 0x1000 +
                    (b2 - 0x80) * 0x40 + (b3 - 0x80)) :: utf8DecodeGo fuel r3
                else repl :: utf8DecodeGo fuel r2
            else repl :: utf8DecodeGo fuel r1
        else repl :: utf8DecodeGo fuel bs
    else repl :: utf8DecodeGo fuel bs

/-- Model of Buffer.prototype.toString with the utf8 encoding, as V8
(WHATWG) decodes it: well-formed sequences become their code points, the
E0/ED/F0/F4 continuation bounds exclude overlong and surrogate encodings,
and each maximal malformed or truncated subpart becomes one replacement
character. Each chunk is decoded independently, exactly as the per-chunk
`chunk.toString()` in transform does. -/
def utf8Decode (bytes : List Nat) : List Char :=
  utf8DecodeGo bytes.length bytes

/-- The transform callback as Node invokes it with a Buffer chunk:
`buffer += chunk.toString()` first decodes the chunk bytes as UTF-8 — so a
chunk boundary inside a multi-byte character yields replacement
characters — and the decoded text then goes through the line-splitting
step. -/
def transformBytes (parse : List Char → Except String α) (st : PState)
    (chunk : List Nat) : PState × List (Out α) :=
  transform parse st (utf8Decode chunk)

/-- Feed a list of Buffer chunks to transformBytes in order, threading the
closure state and concatenating the outputs. -/
def runChunksBytes (parse : List Char → Except String α) (st : PState) :
    List (List Nat) → PState × List (Out α)
  | [] => (st, [])
  | c :: cs =>
    let r₁ := transformBytes parse st c
    let r₂ := runChunksBytes parse r₁.1 cs
    (r₂.1, r₁.2 ++ r₂.2)

/-- A complete decode session over Buffer chunks: all chunks through
transformBytes, then flush. -/
def runAllBytes (parse : List Char → Except String α)
    (chunks : List (List Nat)) : List (Out α) :=
  let r := runChunksBytes parse initState chunks
  r.2 ++ flush parse r.1

/-- Node object-mode delivery: `this.push(null)` signals end of stream, so
the consumer iterating the parser receives only the pushed values that
precede the first null value (anything pushed later raises
ERR_STREAM_PUSH_AFTER_EOF and is never delivered). Values that are the
JSON null are recognised by the given predicate on the value domain. -/
def yieldedValues (isNull : α → Bool) (outs : List (Out α)) : List α :=
  (valuesOf outs).takeWhile (fun v => !(isNull v))

/-- The value sequence parseStream actually yields to its consumer: the
pushed values up to (and excluding) the first parsed null record. -/
def parseStreamYield (parse : List Char → Except String α)
    (isNull : α → Bool) (chunks : List (List Char)) : List α :=
  yieldedValues isNull (runAll parse chunks)

/-- A concrete stand-in for JSON.parse that accepts exactly the single
accented character é (UTF-8 bytes 0xC3 0xA9), used to exhibit the
byte-level chunking counterexample. -/
def accentParse : List Char → Except String Nat := fun s =>
  if s = "é".toList then .ok 1 else .error "bad"

/-- A concrete stand-in for JSON.parse over the value domain Option Nat,
where none models the JSON null value: it accepts null, 1 and 2, used in
the null-termination counterexample and witness. -/
def demoParseN : List Char → Except String (Option Nat) := fun s =>
  if s = "null".toList then .ok none
  else if s = "1".toList then .ok (some 1)
  else if s = "2".toList then .ok (some 2)
  else .error "bad"

theorem splitNl_ne_nil (s : List Char) : splitNl s ≠ [] := by
  induction s with
  | nil => simp [splitNl]
  | cons c cs ih =>
    simp only [splitNl]
    split
    · simp
    · split <;> simp

theorem splitNl_cons_newline (cs : List Char) :
    splitNl ('\n' :: cs) = [] :: splitNl cs := by
  simp [splitNl]

theorem splitNl_cons_other {c : Char} (hc : c ≠ '\n') {cs : List Char}
    {a : List Char} {l : List (List Char)} (hl : splitNl cs = a :: l) :
    splitNl (c :: cs) = (c :: a) :: l := by
  simp [splitNl, if_neg hc, hl]

theorem splitNl_exists_cons (cs : List Char) :
    ∃ a l, splitNl cs = a :: l := by
  cases hsp : splitNl cs with
  | nil => exact absurd hsp (splitNl_ne_nil cs)
  | cons a l => exact ⟨a, l, rfl⟩

theorem splitNl_append (x y : List Char) :
    splitNl (x ++ y) = (splitNl x).dropLast ++ splitNl ((splitNl x).getLastD [] ++ y) := by
  induction x with
  | nil => simp [splitNl]
  | cons c cs ih =>
    obtain ⟨a, l, hl⟩ := splitNl_exists_cons cs
    obtain ⟨a2, l2, hl2⟩ := splitNl_exists_cons (cs ++ y)
    by_cases hc : c = '\n'
    · subst hc
      rw [List.cons_append, splitNl_cons_newline, splitNl_cons_newline, ih, hl]
      simp [List.getLastD_cons]
    · have key : a2 :: l2 = (a :: l).dropLast ++ splitNl ((a :: l).getLastD [] ++ y) := by
        rw [← hl2, ih, hl]
      rw [List.cons_append, splitNl_cons_other hc hl2, splitNl_cons_other hc hl]
      cases l with
      | nil =>
        simp only [List.dropLast_single, List.nil_append, List.getLastD_cons,
          List.getLastD_nil] at key ⊢
        rw [List.cons_append, splitNl_cons_other hc key.symm]
      | cons b bs =>
        simp only [List.getLastD_cons, List.dropLast_cons₂, List.cons_append] at key ⊢
        injection key with h1 h2
        rw [h1, h2]

theorem getLastD_mem_of_ne_nil {β : Type} (l : List β) (d : β) (h : l ≠ []) :
    l.getLastD d ∈ l := by
  induction l generalizing d with
  | nil => exact absurd rfl h
  | cons a t ih =>
    rw [List.getLastD_cons]
    cases t with
    | nil => simp [List.getLastD_nil]
    | cons b bs => exact List.mem_cons_of_mem a (ih a (by simp))

theorem splitNl_no_nl (s : List Char) : ∀ l ∈ splitNl s, '\n' ∉ l := by
  induction s with
  | nil => simp [splitNl]
  | cons c cs ih =>
    by_cases hc : c = '\n'
    · subst hc
      rw [splitNl_cons_newline]
      intro l hl
      rw [List.mem_cons] at hl
      rcases hl with rfl | h
      · simp
      · exact ih l h
    · obtain ⟨a, l, hl⟩ := splitNl_exists_cons cs
      rw [splitNl_cons_other hc hl]
      intro m hm
      rw [List.mem_cons] at hm
      rcases hm with rfl | h
      · intro hmem
        rw [List.mem_cons] at hmem
        rcases hmem with h | h
        · exact hc h.symm
        · exact ih a (by simp [hl]) h
      · exact ih m (by simp [hl, h])

theorem splitNl_eq_single {s : List Char} (h : '\n' ∉ s) : splitNl s = [s] := by
  induction s with
  | nil => simp [splitNl]
  | cons c cs ih =>
    have hc : c ≠ '\n' := fun hh => h (by simp [hh])
    have hcs : '\n' ∉ cs := fun hh => h (by simp [hh])
    rw [splitNl_cons_other hc (ih hcs)]

theorem splitNl_line_append {l : List Char} (h : '\n' ∉ l) (r : List Char) :
    splitNl (l ++ '\n' :: r) = l :: splitNl r := by
  induction l with
  | nil => simp [splitNl_cons_newline]
  | cons c cs ih =>
    have hc : c ≠ '\n' := fun hh => h (by simp [hh])
    have hcs : '\n' ∉ cs := fun hh => h (by simp [hh])
    obtain ⟨a, t, ht⟩ := splitNl_exists_cons (cs ++ '\n' :: r)
    have hit := ih hcs
    rw [ht] at hit
    injection hit with h1 h2
    rw [List.cons_append, splitNl_cons_other hc ht, h1, h2]

theorem processLines_fst (parse : List Char → Except String α) (n : Nat)
    (L : List (List Char)) : (processLines parse n L).1 = n + L.length := by
  induction L generalizing n with
  | nil => simp [processLines]
  | cons l ls ih => simp [processLines, ih]; omega

theorem processLines_append (parse : List Char → Except String α) (n : Nat)
    (A B : List (List Char)) :
    processLines parse n (A ++ B) =
      ((processLines parse (processLines parse n A).1 B).1,
        (processLines parse n A).2 ++ (processLines parse (processLines parse n A).1 B).2) := by
  induction A generalizing n with
  | nil => simp [processLines]
  | cons l ls ih => simp [processLines, ih]

theorem transform_no_nl (parse : List Char → Except String α) (st : PState)
    (chunk : List Char) : '\n' ∉ (transform parse st chunk).1.buffer := by
  unfold transform
  obtain ⟨a, l, hl⟩ := splitNl_exists_cons (st.buffer ++ chunk)
  simp only [hl]
  have hmem : (a :: l).getLastD [] ∈ a :: l := getLastD_mem_of_ne_nil _ _ (by simp)
  have := splitNl_no_nl (st.buffer ++ chunk)
  rw [hl] at this
  exact this _ hmem

theorem getLastD_append_cons {β : Type} (l₁ : List β) (b : β) (l₂ : List β) (d : β) :
    (l₁ ++ b :: l₂).getLastD d = (b :: l₂).getLastD d := by
  induction l₁ generalizing d with
  | nil => rfl
  | cons x t ih =>
    rw [List.cons_append, List.getLastD_cons, ih, List.getLastD_cons, List.getLastD_cons]

theorem transform_append (parse : List Char → Except String α) (st : PState)
    (a b : List Char) :
    transform parse st (a ++ b) =
      ((transform parse (transform parse st a).1 b).1,
       (transform parse st a).2 ++ (transform parse (transform parse st a).1 b).2) := by
  obtain ⟨a2, l2, hl2⟩ := splitNl_exists_cons ((splitNl (st.buffer ++ a)).getLastD [] ++ b)
  have hcomb : st.buffer ++ (a ++ b) = (st.buffer ++ a) ++ b := by
    rw [List.append_assoc]
  simp only [transform, hcomb, splitNl_append (st.buffer ++ a) b, hl2,
    List.dropLast_append_cons, getLastD_append_cons, processLines_append]

theorem transform_nil (parse : List Char → Except String α) (st : PState)
    (h : '\n' ∉ st.buffer) : transform parse st [] = (st, []) := by
  simp only [transform, List.append_nil, splitNl_eq_single h, List.getLastD_cons,
    List.getLastD_nil, List.dropLast_single, processLines]

theorem runChunks_eq_transform (parse : List Char → Except String α) (st : PState)
    (chunks : List (List Char)) (h : '\n' ∉ st.buffer) :
    runChunks parse st chunks = transform parse st chunks.flatten := by
  induction chunks generalizing st with
  | nil => simp [runChunks, transform_nil parse st h]
  | cons c cs ih =>
    rw [List.flatten_cons, transform_append]
    simp only [runChunks]
    rw [ih _ (transform_no_nl parse st c)]

theorem runAll_flatten (parse : List Char → Except String α)
    (chunks : List (List Char)) :
    runAll parse chunks = runAll parse [chunks.flatten] := by
  unfold runAll
  rw [runChunks_eq_transform parse initState chunks (by simp [initState])]
  simp only [runChunks, List.append_nil]

theorem getLastD_splitNl_eq_afterLastNl (s : List Char) :
    (splitNl s).getLastD [] = afterLastNl s := by
  induction s using List.reverseRecOn with
  | nil => simp [splitNl, afterLastNl]
  | append_singleton t c ih =>
    have hg : '\n' ∉ (splitNl t).getLastD [] := by
      obtain ⟨a, l, hl⟩ := splitNl_exists_cons t
      rw [hl]
      exact splitNl_no_nl t _ (hl ▸ getLastD_mem_of_ne_nil (a :: l) [] (by simp))
    rw [splitNl_append]
    by_cases hc : c = '\n'
    · subst hc
      rw [splitNl_line_append hg []]
      simp [splitNl, afterLastNl, getLastD_append_cons, List.getLastD_cons]
    · have hnl : '\n' ∉ (splitNl t).getLastD [] ++ [c] := by
        intro hmem
        rcases List.mem_append.mp hmem with h | h
        · exact hg h
        · simp at h; exact hc h.symm
      rw [splitNl_eq_single hnl, getLastD_append_cons]
      simp only [List.getLastD_cons, List.getLastD_nil]
      rw [ih]
      simp only [afterLastNl, List.reverse_append, List.reverse_singleton,
        List.singleton_append, List.takeWhile_cons]
      simp [hc]

theorem splitNl_joinNl (L : List (List Char)) (t : List Char)
    (hL : ∀ l ∈ L, '\n' ∉ l) (ht : '\n' ∉ t) :
    splitNl (joinNl L ++ t) = L ++ [t] := by
  induction L with
  | nil => simp [joinNl, splitNl_eq_single ht]
  | cons l ls ih =>
    have h1 : '\n' ∉ l := hL l (by simp)
    have h2 : ∀ m ∈ ls, '\n' ∉ m := fun m hm => hL m (by simp [hm])
    show splitNl ((l ++ '\n' :: joinNl ls) ++ t) = (l :: ls) ++ [t]
    rw [List.append_assoc, List.cons_append, splitNl_line_append h1, ih h2,
      List.cons_append]

theorem runAll_lines (parse : List Char → Except String α)
    (L : List (List Char)) (t : List Char)
    (hL : ∀ l ∈ L, '\n' ∉ l) (ht : '\n' ∉ t) :
    runAll parse [joinNl L ++ t] =
      (processLines parse 0 L).2 ++ flush parse ⟨t, L.length⟩ := by
  unfold runAll
  simp only [runChunks, List.append_nil]
  unfold transform
  simp only [initState, List.nil_append]
  rw [splitNl_joinNl L t hL ht, List.dropLast_concat, getLastD_append_cons]
  simp only [List.getLastD_cons, List.getLastD_nil, processLines_fst, Nat.zero_add]

theorem processLines_snd_eq (parse : List Char → Except String α) (n : Nat)
    (L : List (List Char)) :
    (processLines parse n L).2 =
      ((List.range L.length).map
        (fun i => processLine parse (n + i + 1) (L.getD i []))).flatten := by
  induction L generalizing n with
  | nil => simp [processLines]
  | cons l ls ih =>
    simp only [processLines, List.length_cons, List.range_succ_eq_map, List.map_cons,
      List.flatten_cons, List.map_map, List.getD_cons_zero, Nat.add_zero]
    rw [ih]
    congr 1
    congr 1
    apply List.map_congr_left
    intro i _
    simp only [Function.comp_apply, List.getD_cons_succ]
    congr 1
    omega

theorem valuesOf_append (a b : List (Out α)) :
    valuesOf (a ++ b) = valuesOf a ++ valuesOf b := by
  simp [valuesOf, List.filterMap_append]

theorem diagsOf_append (a b : List (Out α)) :
    diagsOf (a ++ b) = diagsOf a ++ diagsOf b := by
  simp [diagsOf, List.filterMap_append]

theorem valuesOf_flatten (xs : List (List (Out α))) :
    valuesOf xs.flatten = (xs.map valuesOf).flatten := by
  induction xs with
  | nil => rfl
  | cons x t ih => simp [valuesOf_append, ih]

theorem diagsOf_flatten (xs : List (List (Out α))) :
    diagsOf xs.flatten = (xs.map diagsOf).flatten := by
  induction xs with
  | nil => rfl
  | cons x t ih => simp [diagsOf_append, ih]

theorem diagsOf_processLine (parse : List Char → Except String α) (n : Nat)
    (l : List Char) :
    diagsOf (processLine parse n l) = [] ∨
      ∃ m, diagsOf (processLine parse n l) = [(n, m)] := by
  unfold processLine
  split
  · left; rfl
  · cases parse l with
    | ok v => left; rfl
    | error m => right; exact ⟨m, rfl⟩

theorem processLines_diag_gt (parse : List Char → Except String α) (n : Nat)
    (L : List (List Char)) :
    ∀ d ∈ diagsOf (processLines parse n L).2, n < d.1 := by
  induction L generalizing n with
  | nil => simp [processLines, diagsOf]
  | cons l ls ih =>
    simp only [processLines, diagsOf_append]
    intro d hd
    rcases List.mem_append.mp hd with h | h
    · rcases diagsOf_processLine parse (n + 1) l with he | ⟨m, he⟩
      · rw [he] at h; simp at h
      · rw [he] at h
        simp at h
        subst h
        simp
    · have := ih (n + 1) d h
      omega

theorem processLines_diag_pairwise (parse : List Char → Except String α) (n : Nat)
    (L : List (List Char)) :
    List.Pairwise (fun d e => d.1 < e.1) (diagsOf (processLines parse n L).2) := by
  induction L generalizing n with
  | nil => simp [processLines, diagsOf]
  | cons l ls ih =>
    simp only [processLines, diagsOf_append]
    rw [List.pairwise_append]
    refine ⟨?_, ih (n + 1), ?_⟩
    · rcases diagsOf_processLine parse (n + 1) l with he | ⟨m, he⟩ <;> simp [he]
    · intro d hd e he
      rcases diagsOf_processLine parse (n + 1) l with h | ⟨m, h⟩
      · rw [h] at hd; simp at hd
      · rw [h] at hd
        simp at hd
        subst hd
        have := processLines_diag_gt parse (n + 1) ls e he
        simpa using this

theorem diagsOf_flush (parse : List Char → Except String α) (st : PState) :
    ∀ d ∈ diagsOf (flush parse st), d.1 = st.itemCount := by
  unfold flush
  split
  · simp [diagsOf]
  · cases parse st.buffer with
    | ok v => simp [diagsOf]
    | error m => simp [diagsOf]

theorem runChunksBytes_eq (parse : List Char → Except String α) (st : PState)
    (chunks : List (List Nat)) :
    runChunksBytes parse st chunks = runChunks parse st (chunks.map utf8Decode) := by
  induction chunks generalizing st with
  | nil => rfl
  | cons c cs ih =>
    simp only [runChunksBytes, runChunks, List.map_cons, transformBytes, ih]

theorem runAllBytes_eq (parse : List Char → Except String α)
    (chunks : List (List Nat)) :
    runAllBytes parse chunks = runAll parse (chunks.map utf8Decode) := by
  unfold runAllBytes runAll
  rw [runChunksBytes_eq]

/-- C1 counterexample: the two UTF-8 bytes of the record é fed one byte
per chunk decode to two replacement characters, so the session output
differs from the single-chunk session: one byte per chunk garbles a
multi-byte character and breaks the claimed invariance. -/
theorem chunking_bytes_cex :
    valuesOf (runAllBytes accentParse [[0xC3], [0xA9]]) = [] ∧
    valuesOf (runAllBytes accentParse [[0xC3, 0xA9]]) = [1] ∧
    runAllBytes accentParse [[0xC3], [0xA9]] ≠
      runAllBytes accentParse [[0xC3, 0xA9]] := by
  decide

/-- C1 (amended): for every byte stream and every chunking of it that
respects UTF-8 character boundaries — that is, whenever decoding the
chunks one at a time agrees with decoding the concatenated stream —
feeding the chunks one at a time to transform followed by flush yields the
same ordered decoded values and the same ordered diagnostics as feeding
the whole stream as a single chunk; a chunk boundary inside a multi-byte
character breaks this (see the counterexample). -/
theorem chunking_invariance_boundaries {α : Type}
    (parse : List Char → Except String α) (chunks : List (List Nat))
    (h : (chunks.map utf8Decode).flatten = utf8Decode chunks.flatten) :
    valuesOf (runAllBytes parse chunks) =
      valuesOf (runAllBytes parse [chunks.flatten]) ∧
    diagsOf (runAllBytes parse chunks) =
      diagsOf (runAllBytes parse [chunks.flatten]) := by
  have key : runAllBytes parse chunks = runAllBytes parse [chunks.flatten] := by
    rw [runAllBytes_eq, runAllBytes_eq, runAll_flatten, h]
    rfl
  rw [key]
  exact ⟨rfl, rfl⟩

/-- C1 witness: the boundary-respecting chunking of the bytes of é
followed by a newline byte, versus the same bytes as one chunk. -/
theorem chunking_invariance_boundaries_witness :
    valuesOf (runAllBytes accentParse [[0xC3, 0xA9], [0x0A]]) =
      valuesOf (runAllBytes accentParse [([[0xC3, 0xA9], [0x0A]] :
        List (List Nat)).flatten]) ∧
    diagsOf (runAllBytes accentParse [[0xC3, 0xA9], [0x0A]]) =
      diagsOf (runAllBytes accentParse [([[0xC3, 0xA9], [0x0A]] :
        List (List Nat)).flatten]) :=
  chunking_invariance_boundaries accentParse [[0xC3, 0xA9], [0x0A]] (by decide)

/-- C2 counterexample: for the single unterminated malformed record x, the
flush diagnostic carries index 0, not the 1-based ordinal 1 of the final
line: flush does not increment itemCount before parsing the carry. -/
theorem flush_increment_cex :
    diagsOf (runAll demoParse [String.toList "x"]) = [(0, "bad")] ∧
    diagsOf (runAll demoParse [String.toList "x"]) ≠ [(1, "bad")] := by
  decide

/-- C2 (amended): flush does not increment itemCount before parsing the
carry: when the carry is non-blank and malformed, its diagnostic carries
the itemCount accumulated during ingestion — the count of complete lines,
i.e. the trailing line's 1-based ordinal minus one. -/
theorem flush_unincremented_index {α : Type} (parse : List Char → Except String α)
    (st : PState) (m : String) (hb : jsTrim st.buffer ≠ [])
    (hm : parse st.buffer = .error m) :
    flush parse st = [Out.emit st.itemCount m] := by
  unfold flush
  rw [if_neg hb, hm]

/-- C2 witness: the amended flush behaviour at the concrete state with
buffer x and itemCount 3. -/
theorem flush_unincremented_index_witness :
    flush demoParse ⟨String.toList "x", 3⟩ = [Out.emit 3 "bad"] :=
  flush_unincremented_index demoParse ⟨String.toList "x", 3⟩ "bad"
    (by decide) (by rfl)

/-- C3 counterexample: for the input consisting of a malformed line, a
newline and a malformed unterminated trailing record, the diagnostics carry
indices 1 and 1: the index fields are not strictly increasing and the
second diagnostic does not carry the 1-based ordinal 2 of its line. -/
theorem diag_indices_cex :
    (diagsOf (runAll demoParse [String.toList "x\nyy"])).map Prod.fst = [1, 1] ∧
    ¬ List.Pairwise (fun a b => a < b)
      ((diagsOf (runAll demoParse [String.toList "x\nyy"])).map Prod.fst) := by
  decide

/-- C3 (amended): diagnostics emitted by transform carry strictly
increasing indices equal to the 1-based ordinal of the offending line
among all lines seen (blank or not); a diagnostic emitted by flush for an
unterminated trailing line instead carries the total count of
newline-terminated lines — that line's ordinal minus one — which can repeat
the previous diagnostic's index. -/
theorem diag_indices {α : Type} (parse : List Char → Except String α)
    (L : List (List Char)) (t : List Char)
    (hL : ∀ l ∈ L, '\n' ∉ l) (ht : '\n' ∉ t) :
    diagsOf (runAll parse [joinNl L ++ t]) =
      ((List.range L.length).map
        (fun i => diagsOf (processLine parse (i + 1) (L.getD i [])))).flatten
      ++ diagsOf (flush parse ⟨t, L.length⟩) ∧
    List.Pairwise (fun d e => d.1 < e.1) (diagsOf (processLines parse 0 L).2) ∧
    (∀ d ∈ diagsOf (flush parse ⟨t, L.length⟩), d.1 = L.length) := by
  refine ⟨?_, processLines_diag_pairwise parse 0 L, diagsOf_flush parse _⟩
  rw [runAll_lines parse L t hL ht, diagsOf_append, processLines_snd_eq,
    diagsOf_flatten, List.map_map]
  congr 1
  congr 1
  apply List.map_congr_left
  intro i _
  simp

/-- C3 witness: the amended statement at the concrete two-line input with a
malformed unterminated trailing record. -/
theorem diag_indices_witness :
    diagsOf (runAll demoParse
        [joinNl [String.toList "x", String.toList "1"] ++ String.toList "yy"]) =
      ((List.range ([String.toList "x", String.toList "1"]).length).map
        (fun i => diagsOf (processLine demoParse (i + 1)
          (([String.toList "x", String.toList "1"]).getD i [])))).flatten
      ++ diagsOf (flush demoParse ⟨String.toList "yy",
            ([String.toList "x", String.toList "1"]).length⟩) ∧
    List.Pairwise (fun d e => d.1 < e.1)
      (diagsOf (processLines demoParse 0 [String.toList "x", String.toList "1"]).2) ∧
    (∀ d ∈ diagsOf (flush demoParse ⟨String.toList "yy",
        ([String.toList "x", String.toList "1"]).length⟩),
      d.1 = ([String.toList "x", String.toList "1"]).length) :=
  diag_indices demoParse [String.toList "x", String.toList "1"]
    (String.toList "yy") (by decide) (by decide)

theorem getD_set_self {β : Type} (L : List β) (k : Nat) (b d : β)
    (hk : k < L.length) : (L.set k b).getD k d = b := by
  induction L generalizing k with
  | nil => simp at hk
  | cons x xs ih =>
    cases k with
    | zero => rfl
    | succ k => exact ih k (by simpa using hk)

theorem getD_set_ne {β : Type} (L : List β) (k i : Nat) (b d : β)
    (h : i ≠ k) : (L.set k b).getD i d = L.getD i d := by
  induction L generalizing k i with
  | nil => simp [List.set]
  | cons x xs ih =>
    cases k with
    | zero =>
      cases i with
      | zero => exact absurd rfl h
      | succ i => rfl
    | succ k =>
      cases i with
      | zero => rfl
      | succ i => exact ih k i (fun hh => h (by rw [hh]))

theorem flush_nil_buffer (parse : List Char → Except String α) (n : Nat) :
    flush parse ⟨[], n⟩ = [] := rfl

/-- C4: a malformed line at position k (0-based) yields a diagnostic but
does not stop processing: the session output is the concatenation of the
per-line outputs, where position k contributes exactly one diagnostic
carrying its 1-based ordinal and every other position contributes the same
values and indices as the unmodified line list. -/
theorem malformed_line_isolated {α : Type} (parse : List Char → Except String α)
    (L : List (List Char)) (k : Nat) (b : List Char) (m : String)
    (hL : ∀ l ∈ L, '\n' ∉ l) (hb : '\n' ∉ b) (hk : k < L.length)
    (hbt : jsTrim b ≠ []) (hbm : parse b = .error m) :
    runAll parse [joinNl (L.set k b)] =
      ((List.range L.length).map (fun i =>
        if i = k then [Out.emit (k + 1) m]
        else processLine parse (i + 1) (L.getD i []))).flatten := by
  have hL2 : ∀ l ∈ L.set k b, '\n' ∉ l := by
    intro l hl
    rcases List.mem_or_eq_of_mem_set hl with h | h
    · exact hL l h
    · subst h; exact hb
  have hnil : '\n' ∉ ([] : List Char) := by simp
  rw [show joinNl (L.set k b) = joinNl (L.set k b) ++ [] by simp,
    runAll_lines parse (L.set k b) [] hL2 hnil, flush_nil_buffer,
    List.append_nil, processLines_snd_eq, List.length_set]
  congr 1
  apply List.map_congr_left
  intro i hi
  by_cases hik : i = k
  · subst hik
    rw [if_pos rfl, getD_set_self L i b [] hk]
    unfold processLine
    rw [if_neg hbt, hbm]
    simp
  · rw [if_neg hik, getD_set_ne L k i b [] hik]
    simp

/-- C4 witness: the isolation statement at the concrete three-line input
whose middle line is replaced by the malformed text x. -/
theorem malformed_line_isolated_witness :
    runAll demoParse
        [joinNl ([String.toList "1", String.toList "1", String.toList "2"].set 1
          (String.toList "x"))] =
      ((List.range ([String.toList "1", String.toList "1",
          String.toList "2"]).length).map (fun i =>
        if i = 1 then [Out.emit (1 + 1) "bad"]
        else processLine demoParse (i + 1)
          (([String.toList "1", String.toList "1", String.toList "2"]).getD i []))).flatten :=
  malformed_line_isolated demoParse
    [String.toList "1", String.toList "1", String.toList "2"] 1
    (String.toList "x") "bad" (by decide) (by decide) (by decide)
    (by decide) (by rfl)

/-- C5: a complete line that is empty or whitespace-only increments
itemCount — the remaining lines are processed from the next counter value
and the final count includes it — but contributes no decoded value and no
diagnostic. -/
theorem blank_line_skipped {α : Type} (parse : List Char → Except String α)
    (n : Nat) (line : List Char) (ls : List (List Char))
    (h : jsTrim line = []) :
    processLines parse n (line :: ls) = processLines parse (n + 1) ls ∧
    (processLines parse n (line :: ls)).1 = n + 1 + ls.length := by
  constructor
  · simp [processLines, processLine, h]
  · rw [processLines_fst]
    simp only [List.length_cons]
    omega

/-- C5 witness: the blank-line statement at a concrete whitespace-only
line followed by one valid record line. -/
theorem blank_line_skipped_witness :
    processLines demoParse 0 (String.toList " \t " :: [String.toList "1"]) =
      processLines demoParse (0 + 1) [String.toList "1"] ∧
    (processLines demoParse 0 (String.toList " \t " :: [String.toList "1"])).1 =
      0 + 1 + ([String.toList "1"]).length :=
  blank_line_skipped demoParse 0 (String.toList " \t ") [String.toList "1"]
    (by decide)

/-- C6: a trailing record with no final newline that is not pure
whitespace is parsed exactly once, during flush: the session output is the
transform-phase outputs of the newline-terminated lines followed by
exactly one element for the trailing record — one pushed value when it
parses, one diagnostic when it does not — never zero and never two. -/
theorem trailing_record_once {α : Type} (parse : List Char → Except String α)
    (L : List (List Char)) (t : List Char)
    (hL : ∀ l ∈ L, '\n' ∉ l) (ht : '\n' ∉ t) (htr : jsTrim t ≠ []) :
    runAll parse [joinNl L ++ t] =
      (processLines parse 0 L).2 ++
        [match parse t with
         | .ok v => Out.push v
         | .error m => Out.emit L.length m] := by
  rw [runAll_lines parse L t hL ht]
  congr 1
  show flush parse ⟨t, L.length⟩ = _
  unfold flush
  rw [if_neg htr]
  cases parse t <;> rfl

/-- C6 witness: the trailing-record statement at a concrete input with one
complete line and a valid unterminated trailing record. -/
theorem trailing_record_once_witness :
    runAll demoParse [joinNl [String.toList "1"] ++ String.toList "2"] =
      (processLines demoParse 0 [String.toList "1"]).2 ++
        [match demoParse (String.toList "2") with
         | .ok v => Out.push v
         | .error m => Out.emit ([String.toList "1"]).length m] :=
  trailing_record_once demoParse [String.toList "1"] (String.toList "2")
    (by decide) (by decide) (by decide)

/-- C7: after every sequence of transform calls starting from the initial
empty carry, the carry buffer contains no newline character and equals
exactly the suffix of all input received so far that follows the last
newline seen (the whole input when none has been seen). -/
theorem carry_invariant {α : Type} (parse : List Char → Except String α)
    (chunks : List (List Char)) :
    '\n' ∉ (runChunks parse initState chunks).1.buffer ∧
    (runChunks parse initState chunks).1.buffer = afterLastNl chunks.flatten := by
  rw [runChunks_eq_transform parse initState chunks (by simp [initState])]
  refine ⟨transform_no_nl parse initState chunks.flatten, ?_⟩
  show (splitNl (initState.buffer ++ chunks.flatten)).getLastD [] = _
  simp only [initState, List.nil_append]
  exact getLastD_splitNl_eq_afterLastNl chunks.flatten

theorem valuesOf_processLine (parse : List Char → Except String α) (n : Nat)
    (l : List Char) :
    valuesOf (processLine parse n l) =
      (if jsTrim l = [] then none else (parse l).toOption).toList := by
  unfold processLine
  split
  · rfl
  · cases parse l <;> rfl

theorem valuesOf_processLines (parse : List Char → Except String α) (n : Nat)
    (L : List (List Char)) :
    valuesOf (processLines parse n L).2 =
      L.filterMap (fun l => if jsTrim l = [] then none else (parse l).toOption) := by
  induction L generalizing n with
  | nil => rfl
  | cons l ls ih =>
    simp only [processLines, valuesOf_append, ih, valuesOf_processLine,
      List.filterMap_cons]
    cases hf : (if jsTrim l = [] then none else (parse l).toOption) <;> simp

theorem valuesOf_flush (parse : List Char → Except String α) (st : PState) :
    valuesOf (flush parse st) =
      (if jsTrim st.buffer = [] then none else (parse st.buffer).toOption).toList := by
  unfold flush
  split
  · rfl
  · cases parse st.buffer <;> rfl

theorem valuesOf_runAll_lines (parse : List Char → Except String α)
    (L : List (List Char)) (t : List Char)
    (hL : ∀ l ∈ L, '\n' ∉ l) (ht : '\n' ∉ t) :
    valuesOf (runAll parse [joinNl L ++ t]) =
      L.filterMap (fun l => if jsTrim l = [] then none else (parse l).toOption) ++
      (if jsTrim t = [] then none else (parse t).toOption).toList := by
  rw [runAll_lines parse L t hL ht, valuesOf_append, valuesOf_processLines,
    valuesOf_flush]

/-- C8 counterexample: a record that parses to the JSON null value ends
the object-mode stream — push(null) signals end of stream — so for the
input null then 1 the consumer receives the empty sequence, not the two
successfully parsed values the parser pushes. -/
theorem null_terminates_cex :
    parseStreamYield demoParseN Option.isNone [String.toList "null\n1\n"] = [] ∧
    valuesOf (runAll demoParseN [String.toList "null\n1\n"]) = [none, some 1] ∧
    parseStreamYield demoParseN Option.isNone [String.toList "null\n1\n"] ≠
      valuesOf (runAll demoParseN [String.toList "null\n1\n"]) := by
  decide

/-- C8 (amended): the value sequence delivered to the consumer is the
longest prefix of the successfully parsed values of the non-blank lines
(and the non-blank unterminated trailing record), in input order, that
precedes the first value that is the JSON null: diagnostics are never
interleaved into it as values and a malformed record never terminates it,
but a record parsing to null does, because push(null) is Node's
end-of-stream signal. -/
theorem yielded_prefix_before_null {α : Type}
    (parse : List Char → Except String α) (isNull : α → Bool)
    (L : List (List Char)) (t : List Char)
    (hL : ∀ l ∈ L, '\n' ∉ l) (ht : '\n' ∉ t) :
    parseStreamYield parse isNull [joinNl L ++ t] =
      (L.filterMap (fun l => if jsTrim l = [] then none else (parse l).toOption) ++
        (if jsTrim t = [] then none else (parse t).toOption).toList).takeWhile
        (fun v => !(isNull v)) := by
  unfold parseStreamYield yieldedValues
  rw [valuesOf_runAll_lines parse L t hL ht]

/-- C8 witness: the delivered sequence at a concrete input with a valid
record, a blank line, a malformed record, a null record, and a further
valid record: everything after the null is cut off. -/
theorem yielded_prefix_before_null_witness :
    parseStreamYield demoParseN Option.isNone
        [joinNl [String.toList "1", String.toList " ", String.toList "x",
          String.toList "null"] ++ String.toList "2"] =
      (([String.toList "1", String.toList " ", String.toList "x",
          String.toList "null"]).filterMap
        (fun l => if jsTrim l = [] then none else (demoParseN l).toOption) ++
        (if jsTrim (String.toList "2") = [] then none
         else (demoParseN (String.toList "2")).toOption).toList).takeWhile
        (fun v => !(Option.isNone v)) :=
  yielded_prefix_before_null demoParseN Option.isNone
    [String.toList "1", String.toList " ", String.toList "x",
      String.toList "null"]
    (String.toList "2") (by decide) (by decide)

/-- C9: invoked with no options, null options, or options lacking
batchSize, the decorator factory returns a request whose batchSize is 25;
with a supplied batchSize it returns exactly that value; in every case the
body is the parseStream value sequence, which is computed without
reference to batchSize. -/
theorem batch_size_default {α : Type} (parse : List Char → Except String α)
    (chunks : List (List Char)) (ct : List Char)
    (hct : containsSub (toLowerList ct) ("application/x-ndjson".toList) = true) :
    ndJsonStreamReq parse none (some ct) chunks =
      .ok ⟨parseStreamValues parse chunks, 25⟩ ∧
    ndJsonStreamReq parse (some ⟨none⟩) (some ct) chunks =
      .ok ⟨parseStreamValues parse chunks, 25⟩ ∧
    ∀ b : Int, ndJsonStreamReq parse (some ⟨some b⟩) (some ct) chunks =
      .ok ⟨parseStreamValues parse chunks, b⟩ := by
  refine ⟨?_, ?_, fun b => ?_⟩ <;>
    · show (if containsSub (toLowerList ct) ("application/x-ndjson".toList) = true
            then _ else Except.error "BadRequestException: Invalid content-type") = _
      rw [if_pos hct]
      try rfl

/-- C9 witness: the batch-size statement at the concrete valid
content-type header application/x-ndjson. -/
theorem batch_size_default_witness :
    ndJsonStreamReq demoParse none (some ("application/x-ndjson".toList))
        [String.toList "1\n"] =
      .ok ⟨parseStreamValues demoParse [String.toList "1\n"], 25⟩ ∧
    ndJsonStreamReq demoParse (some ⟨none⟩)
        (some ("application/x-ndjson".toList)) [String.toList "1\n"] =
      .ok ⟨parseStreamValues demoParse [String.toList "1\n"], 25⟩ ∧
    ∀ b : Int, ndJsonStreamReq demoParse (some ⟨some b⟩)
        (some ("application/x-ndjson".toList)) [String.toList "1\n"] =
      .ok ⟨parseStreamValues demoParse [String.toList "1\n"], b⟩ :=
  batch_size_default demoParse [String.toList "1\n"]
    ("application/x-ndjson".toList) (by decide)

theorem eventName_ne_subscribed (n : Nat) (m : String) :
    eventName n m ≠ "parse-error".toList := by
  intro h
  unfold eventName at h
  rw [show "Error occurred parsing stream item ".toList =
        'E' :: "rror occurred parsing stream item ".toList from rfl,
    List.cons_append,
    show "parse-error".toList = 'p' :: "arse-error".toList from rfl] at h
  injection h with h1 _
  exact absurd h1 (by decide)

/-- C10: for every input, parseStream's internal errors list stays empty
and its console.warn branch is never taken: the parser emits its failure
events under names beginning Error occurred parsing stream item, never
under the name parse-error that parseStream subscribes to, so no parse
diagnostic is observable through parseStream. -/
theorem no_observable_parse_error {α : Type}
    (parse : List Char → Except String α) (chunks : List (List Char)) :
    parseStreamErrors parse chunks = [] ∧ warnCalled parse chunks = false := by
  have he : parseStreamErrors parse chunks = [] := by
    unfold parseStreamErrors
    rw [List.filterMap_eq_nil_iff]
    intro o _
    cases o with
    | push v => rfl
    | emit n m =>
      show (if eventName n m = "parse-error".toList then some (eventName n m)
        else none) = none
      rw [if_neg (eventName_ne_subscribed n m)]
  exact ⟨he, by simp [warnCalled, he]⟩

end NdJson
